import Mathlib

/-!
Shallow embedding of `src/tree_code.py`: the split-search routine
`find_best_split` and the decision-tree fitting / prediction routines of
class `DecisionTree`.  Feature values are modelled as rationals (`ℚ`),
class labels as integers (`ℤ`).  NumPy arrays become lists; `None` results
become `Option`; the recursive `_fit_node` is given explicit fuel (the
number of rows suffices, as proved below).
-/

namespace TreeCode

/-- First-occurrence deduplication with an accumulator of already-seen
values.  This models the key order of a Python `dict` / `Counter`
(insertion order = order of first occurrence). -/
def firstOccsAux {α : Type} [DecidableEq α] (seen : List α) : List α → List α
  | [] => []
  | a :: l => if a ∈ seen then firstOccsAux seen l else a :: firstOccsAux (a :: seen) l

/-- The distinct elements of `l` in order of first occurrence. -/
def firstOccs {α : Type} [DecidableEq α] (l : List α) : List α :=
  firstOccsAux [] l

/-- Models `np.unique`: the sorted list of distinct values of `l`.  Implemented as
a stable insertion sort followed by first-occurrence deduplication (on a
`≤`-sorted list this yields exactly the strictly increasing list of
distinct values). -/
def uniqueSorted {α : Type} [LinearOrder α] (l : List α) : List α :=
  firstOccs (l.insertionSort (· ≤ ·))

/-- Models `(unique_values[:-1] + unique_values[1:]) / 2`: the midpoints of each
pair of adjacent entries. -/
def midpointsOf : List ℚ → List ℚ
  | a :: b :: rest => (a + b) / 2 :: midpointsOf (b :: rest)
  | _ => []

/-- The inner helper `gini(groups, classes)` of `find_best_split`: the sum
over the (non-empty) groups of `(1 - Σ_c p_c²) · (|group| / total)` where
`total` is the summed size of all groups and `p_c` the proportion of class
`c` in the group.  Empty groups are skipped (`continue`), i.e. contribute
nothing. -/
def gini (groups : List (List ℤ)) (classes : List ℤ) : ℚ :=
  (groups.map (fun group =>
    if group.length = 0 then 0
    else
      (1 - (classes.map (fun c =>
        ((group.count c : ℚ) / (group.length : ℚ)) *
          ((group.count c : ℚ) / (group.length : ℚ)))).sum) *
        ((group.length : ℚ) / (((groups.map List.length).sum : ℕ) : ℚ)))).sum

/-- The best-tracking loop `best_gini = inf; for ...: if score < best_gini`.
`none` models the initial `inf` / `None` state: the first candidate always
replaces it, and afterwards only a strictly smaller key replaces the
incumbent (ties keep the earlier element). -/
def argminFold {α : Type} (f : α → ℚ) (init : Option α) (l : List α) : Option α :=
  l.foldl (fun acc x =>
    match acc with
    | none => some x
    | some b => if f x < f b then some x else some b) init

/-- The joint sort of `feature_vector` and `target_vector` by feature value
(the `argsort` reordering); only the multiset of pairs matters downstream,
so a stable insertion sort is a faithful model. -/
def sortedPairs (feature_vector : List ℚ) (target_vector : List ℤ) : List (ℚ × ℤ) :=
  (feature_vector.zip target_vector).insertionSort (fun a b => a.1 ≤ b.1)

/-- The weighted Gini impurity computed for one candidate threshold `t`:
`gini([target[feature <= t], target[feature > t]], np.unique(target))`. -/
def giniAt (feature_vector : List ℚ) (target_vector : List ℤ) (t : ℚ) : ℚ :=
  gini [((sortedPairs feature_vector target_vector).filter
            (fun p => decide (p.1 ≤ t))).map Prod.snd,
        ((sortedPairs feature_vector target_vector).filter
            (fun p => decide (t < p.1))).map Prod.snd]
    (uniqueSorted ((sortedPairs feature_vector target_vector).map Prod.snd))

/-- The local `unique_values = np.unique(feature_vector)` (of the sorted feature
vector). -/
def fsUnique (feature_vector : List ℚ) (target_vector : List ℤ) : List ℚ :=
  uniqueSorted ((sortedPairs feature_vector target_vector).map Prod.fst)

/-- The local `thresholds = (unique_values[:-1] + unique_values[1:]) / 2`. -/
def fsThresholds (feature_vector : List ℚ) (target_vector : List ℤ) : List ℚ :=
  midpointsOf (fsUnique feature_vector target_vector)

/-- The `ginis` list accumulated by the threshold loop. -/
def fsGinis (feature_vector : List ℚ) (target_vector : List ℤ) : List ℚ :=
  (fsThresholds feature_vector target_vector).map (giniAt feature_vector target_vector)

/-- The `(best_threshold, best_gini)` pair tracked by the threshold loop. -/
def fsBest (feature_vector : List ℚ) (target_vector : List ℤ) : Option (ℚ × ℚ) :=
  argminFold Prod.snd none
    ((fsThresholds feature_vector target_vector).zip (fsGinis feature_vector target_vector))

/-- The function `find_best_split(feature_vector, target_vector)`: returns
`(thresholds, ginis, threshold_best, gini_best)`.  A constant feature
(single distinct value) yields empty sequences and `none` for both best
outputs. -/
def find_best_split (feature_vector : List ℚ) (target_vector : List ℤ) :
    List ℚ × List ℚ × Option ℚ × Option ℚ :=
  if (fsUnique feature_vector target_vector).length = 1 then ([], [], none, none)
  else
    (fsThresholds feature_vector target_vector,
     fsGinis feature_vector target_vector,
     (fsBest feature_vector target_vector).map Prod.fst,
     (fsBest feature_vector target_vector).map Prod.snd)

/-- The two feature type tags `"real"` and `"categorical"`. -/
inductive FeatureType : Type
  | real : FeatureType
  | categorical : FeatureType
deriving DecidableEq

/-- A fitted tree node: the tagged variant behind the `node` dicts
(`"terminal"` / `"nonterminal"` with either a real `threshold` or a
`categories_split` list). -/
inductive Tree : Type
  | terminal (cls : ℤ) : Tree
  | nodeReal (feature : ℕ) (threshold : ℚ) (left right : Tree) : Tree
  | nodeCat (feature : ℕ) (categories : List ℚ) (left right : Tree) : Tree

/-- Models `sub_X.shape[1]`: the number of columns of a (rectangular) sample
matrix. -/
def numCols : List (List ℚ) → ℕ
  | [] => 0
  | r :: _ => r.length

/-- Models `sub_X[:, feature]`: one column of the sample matrix (rows are assumed
rectangular; the default value is never consulted for in-range columns). -/
def column (X : List (List ℚ)) (j : ℕ) : List ℚ :=
  X.map (fun r => r.getD j 0)

/-- Models `ratio[key] = clicks.get(key, 0) / counts[key]`: the fraction of rows
with category value `c` whose label is `1`. -/
def catRatio (col : List ℚ) (y : List ℤ) (c : ℚ) : ℚ :=
  (((col.zip y).filter (fun p => decide (p.1 = c) && decide (p.2 = 1))).length : ℚ) /
    ((col.filter (fun v => decide (v = c))).length : ℚ)

/-- Models `sorted(ratio, key=ratio.get)`: the categories of the column (in
first-occurrence order, as `Counter` keys) stably sorted by their
positive-class rate. -/
def sortedCategories (col : List ℚ) (y : List ℤ) : List ℚ :=
  (firstOccs col).insertionSort (fun a b => catRatio col y a ≤ catRatio col y b)

/-- The map `categories_map` applied to the whole column: each raw category is
replaced by its rank in `sortedCategories`. -/
def categoricalEncode (col : List ℚ) (y : List ℤ) : List ℚ :=
  col.map (fun v => (((sortedCategories col y).indexOf v : ℕ) : ℚ))

/-- Models `[k for k, v in categories_map.items() if v < threshold]`: the
categories whose rank lies below `t`. -/
def catsBelow (cats : List ℚ) (t : ℚ) : List ℚ :=
  (cats.enum.filter (fun p => decide ((p.1 : ℚ) < t))).map Prod.snd

/-- The per-feature proxy vector handed to `find_best_split`: raw values
for a real feature, category ranks for a categorical one. -/
def proxyVector (ft : FeatureType) (col : List ℚ) (y : List ℤ) : List ℚ :=
  match ft with
  | .real => col
  | .categorical => categoricalEncode col y

/-- The split-search state `(feature_best, threshold_best, gini_best,
split)` of `_fit_node`; the four variables are always assigned together,
so the state is a single optional record.  `boundary` is the real
threshold (`inl`) or the raw-category list (`inr`). -/
structure BestSplit : Type where
  feature : ℕ
  boundary : ℚ ⊕ List ℚ
  giniVal : ℚ
  split : List Bool
deriving DecidableEq

/-- The record assigned when a feature wins the comparison:
`feature_best = feature; gini_best = gini; split = feature_vector <
threshold`, with `threshold_best` the real threshold or (for a
categorical feature) the list of categories ranked below it. -/
def recordOf (ftypes : List FeatureType) (X : List (List ℚ)) (y : List ℤ)
    (j : ℕ) (t g : ℚ) : BestSplit :=
  { feature := j
    boundary :=
      match ftypes.getD j FeatureType.real with
      | .real => Sum.inl t
      | .categorical => Sum.inr (catsBelow (sortedCategories (column X j) y) t)
    giniVal := g
    split := (proxyVector (ftypes.getD j FeatureType.real) (column X j) y).map
      (fun v => decide (v < t)) }

/-- One iteration of the feature loop of `_fit_node`: skip a constant
(proxy) feature, otherwise run `find_best_split` and record the feature
when its impurity beats the incumbent (`gini_best is None or gini <
gini_best`).  The `| _ => st` arm is unreachable: past the distinct-count
guard `find_best_split` always returns `some` for both best outputs. -/
def stepFeature (ftypes : List FeatureType) (X : List (List ℚ)) (y : List ℤ)
    (st : Option BestSplit) (j : ℕ) : Option BestSplit :=
  if (proxyVector (ftypes.getD j FeatureType.real) (column X j) y).toFinset.card ≤ 1 then
    st
  else
    match (find_best_split (proxyVector (ftypes.getD j FeatureType.real) (column X j) y)
        y).2.2 with
    | (some t, some g) =>
      match st with
      | none => some (recordOf ftypes X y j t g)
      | some b => if g < b.giniVal then some (recordOf ftypes X y j t g) else st
    | _ => st

/-- The whole feature loop `for feature in range(sub_X.shape[1])`. -/
def bestSplitFold (ftypes : List FeatureType) (X : List (List ℚ)) (y : List ℤ) :
    Option BestSplit :=
  (List.range (numCols X)).foldl (stepFeature ftypes X y) none

/-- Boolean-mask row selection `a[mask]`. -/
def filterMask {α : Type} (l : List α) (m : List Bool) : List α :=
  ((l.zip m).filter (fun p => p.2)).map Prod.fst

/-- The max-tracking loop behind `Counter(y).most_common(1)`: only a
strictly larger key replaces the incumbent, so ties keep the earlier
element. -/
def argmaxFold {α : Type} (f : α → ℕ) (init : Option α) (l : List α) : Option α :=
  l.foldl (fun acc x =>
    match acc with
    | none => some x
    | some b => if f b < f x then some x else some b) init

/-- Models `Counter(sub_y).most_common(1)[0][0]`: the label of maximal count;
`Counter` keys are iterated in first-occurrence order and the stable
descending sort keeps the earliest key among equal counts. -/
def mostCommon (y : List ℤ) : ℤ :=
  (argmaxFold (fun c => y.count c) none (firstOccs y)).getD 0

/-- Build the nonterminal node from the recorded split
(`node["threshold"]` for a real feature, `node["categories_split"]` for a
categorical one). -/
def mkNode (bs : BestSplit) (l r : Tree) : Tree :=
  match bs.boundary with
  | Sum.inl t => Tree.nodeReal bs.feature t l r
  | Sum.inr cats => Tree.nodeCat bs.feature cats l r

/-- Models `_fit_node(sub_X, sub_y, node)` with explicit fuel.  The stopping rule,
the feature loop and the recursion on the two mask partitions follow the
source; `fuel = number of rows` always suffices (proved below), so the
`none` (out-of-fuel) case never arises on real inputs. -/
def fitNode (ftypes : List FeatureType) : ℕ → List (List ℚ) → List ℤ → Option Tree
  | 0, _, _ => none
  | fuel + 1, X, y =>
    if (∀ v ∈ y, v = y.headI) ∨ X.length ≤ 1 then
      some (Tree.terminal y.headI)
    else
      match bestSplitFold ftypes X y with
      | none => some (Tree.terminal (mostCommon y))
      | some bs =>
        match fitNode ftypes fuel (filterMask X bs.split) (filterMask y bs.split),
              fitNode ftypes fuel (filterMask X (bs.split.map (fun b => !b)))
                (filterMask y (bs.split.map (fun b => !b))) with
        | some l, some r => some (mkNode bs l r)
        | _, _ => none

/-- Models `DecisionTree.fit(X, y)`: fit starting from the full training set. -/
def fit (ftypes : List FeatureType) (X : List (List ℚ)) (y : List ℤ) : Option Tree :=
  fitNode ftypes X.length X y

/-- Models `DecisionTree._predict_node(x, node)`: recursive descent.  A real node
routes on `x[feature] < threshold`, a categorical node on membership of
the raw value in the stored category list.  (The source dispatches on
`self._feature_types[node["feature_split"]]`; for trees built by
`_fit_node` that tag coincides with the kind of datum stored on the node,
which is what the tagged `Tree` variant records.) -/
def predictNode (x : List ℚ) : Tree → ℤ
  | Tree.terminal c => c
  | Tree.nodeReal j t l r =>
      if x.getD j 0 < t then predictNode x l else predictNode x r
  | Tree.nodeCat j cats l r =>
      if x.getD j 0 ∈ cats then predictNode x l else predictNode x r

/-- Models `DecisionTree.predict(X)`: row-wise prediction. -/
def predict (tr : Tree) (X : List (List ℚ)) : List ℤ :=
  X.map (fun x => predictNode x tr)

/-- Models `DecisionTree._get_depth(node)`: terminal nodes have depth `0`, an
internal node `1 + max` of its children. -/
def getDepth : Tree → ℕ
  | Tree.terminal _ => 0
  | Tree.nodeReal _ _ l r => 1 + max (getDepth l) (getDepth r)
  | Tree.nodeCat _ _ l r => 1 + max (getDepth l) (getDepth r)

/-! ### Properties of `firstOccs` -/

theorem mem_firstOccsAux {α : Type} [DecidableEq α] (l : List α) :
    ∀ (seen : List α) (x : α), x ∈ firstOccsAux seen l ↔ x ∈ l ∧ x ∉ seen := by
  induction l with
  | nil => intro seen x; simp [firstOccsAux]
  | cons a l ih =>
    intro seen x
    by_cases ha : a ∈ seen
    · rw [firstOccsAux, if_pos ha, ih]
      constructor
      · rintro ⟨h1, h2⟩; exact ⟨List.mem_cons_of_mem a h1, h2⟩
      · rintro ⟨h1, h2⟩
        rcases List.mem_cons.mp h1 with rfl | h1'
        · exact absurd ha h2
        · exact ⟨h1', h2⟩
    · rw [firstOccsAux, if_neg ha]
      simp only [List.mem_cons, ih, List.mem_cons, not_or]
      constructor
      · rintro (rfl | ⟨h1, h2, h3⟩)
        · exact ⟨Or.inl rfl, ha⟩
        · exact ⟨Or.inr h1, h3⟩
      · rintro ⟨rfl | h1, h2⟩
        · exact Or.inl rfl
        · by_cases hxa : x = a
          · exact Or.inl hxa
          · exact Or.inr ⟨h1, hxa, h2⟩

theorem mem_firstOccs {α : Type} [DecidableEq α] (l : List α) (x : α) :
    x ∈ firstOccs l ↔ x ∈ l := by
  rw [firstOccs, mem_firstOccsAux]
  simp

theorem firstOccsAux_sublist {α : Type} [DecidableEq α] (l : List α) :
    ∀ seen : List α, List.Sublist (firstOccsAux seen l) l := by
  induction l with
  | nil => intro seen; simp [firstOccsAux]
  | cons a l ih =>
    intro seen
    by_cases ha : a ∈ seen
    · rw [firstOccsAux, if_pos ha]
      exact (ih seen).trans (List.sublist_cons_self a l)
    · rw [firstOccsAux, if_neg ha]
      exact (ih (a :: seen)).cons₂ a

theorem firstOccs_sublist {α : Type} [DecidableEq α] (l : List α) :
    List.Sublist (firstOccs l) l :=
  firstOccsAux_sublist l []

theorem nodup_firstOccsAux {α : Type} [DecidableEq α] (l : List α) :
    ∀ seen : List α, (firstOccsAux seen l).Nodup := by
  induction l with
  | nil => intro seen; simp [firstOccsAux]
  | cons a l ih =>
    intro seen
    by_cases ha : a ∈ seen
    · rw [firstOccsAux, if_pos ha]; exact ih seen
    · rw [firstOccsAux, if_neg ha]
      refine List.nodup_cons.mpr ⟨fun hmem => ?_, ih _⟩
      exact ((mem_firstOccsAux l _ a).mp hmem).2 (List.mem_cons_self a seen)

theorem nodup_firstOccs {α : Type} [DecidableEq α] (l : List α) : (firstOccs l).Nodup :=
  nodup_firstOccsAux l []

theorem pairwise_indexOf_firstOccsAux {α : Type} [DecidableEq α] :
    ∀ (l seen : List α),
      (firstOccsAux seen l).Pairwise (fun a b => l.indexOf a < l.indexOf b)
  | [], _ => by simp [firstOccsAux]
  | c :: l, seen => by
    have key : ∀ s : List α, c ∈ s →
        (firstOccsAux s l).Pairwise (fun a b => (c :: l).indexOf a < (c :: l).indexOf b) := by
      intro s hcs
      refine (pairwise_indexOf_firstOccsAux l s).imp_of_mem ?_
      intro a b ha hb hab
      have hac : c ≠ a := fun h => ((mem_firstOccsAux l s a).mp ha).2 (h ▸ hcs)
      have hbc : c ≠ b := fun h => ((mem_firstOccsAux l s b).mp hb).2 (h ▸ hcs)
      rw [List.indexOf_cons_ne _ hac, List.indexOf_cons_ne _ hbc]
      exact Nat.succ_lt_succ hab
    by_cases hc : c ∈ seen
    · rw [firstOccsAux, if_pos hc]
      exact key seen hc
    · rw [firstOccsAux, if_neg hc]
      refine List.pairwise_cons.mpr ⟨?_, key (c :: seen) (List.mem_cons_self c seen)⟩
      intro b hb
      have hbc : c ≠ b :=
        fun h => ((mem_firstOccsAux l _ b).mp hb).2 (h ▸ List.mem_cons_self c seen)
      rw [List.indexOf_cons_self, List.indexOf_cons_ne _ hbc]
      exact Nat.succ_pos _

theorem pairwise_indexOf_firstOccs {α : Type} [DecidableEq α] (l : List α) :
    (firstOccs l).Pairwise (fun a b => l.indexOf a < l.indexOf b) :=
  pairwise_indexOf_firstOccsAux l []

/-! ### Properties of `uniqueSorted` -/

theorem uniqueSorted_sorted_lt {α : Type} [LinearOrder α] (l : List α) :
    (uniqueSorted l).Sorted (· < ·) := by
  have hs : (l.insertionSort (· ≤ ·)).Sorted (· ≤ ·) := List.sorted_insertionSort _ l
  have hsub := firstOccs_sublist (l.insertionSort (· ≤ ·))
  exact List.Sorted.lt_of_le (List.Pairwise.sublist hsub hs) (nodup_firstOccs _)

theorem mem_uniqueSorted {α : Type} [LinearOrder α] (l : List α) (x : α) :
    x ∈ uniqueSorted l ↔ x ∈ l := by
  rw [uniqueSorted, mem_firstOccs]
  exact (List.perm_insertionSort _ l).mem_iff

theorem nodup_uniqueSorted {α : Type} [LinearOrder α] (l : List α) :
    (uniqueSorted l).Nodup :=
  nodup_firstOccs _

theorem toFinset_uniqueSorted {α : Type} [LinearOrder α] [DecidableEq α] (l : List α) :
    (uniqueSorted l).toFinset = l.toFinset := by
  ext x
  simp [List.mem_toFinset, mem_uniqueSorted]

theorem length_uniqueSorted {α : Type} [LinearOrder α] [DecidableEq α] (l : List α) :
    (uniqueSorted l).length = l.toFinset.card := by
  rw [← toFinset_uniqueSorted, List.toFinset_card_of_nodup (nodup_uniqueSorted l)]

/-! ### Properties of `midpointsOf` -/

theorem length_midpointsOf : ∀ u : List ℚ, (midpointsOf u).length = u.length - 1
  | [] => rfl
  | [_] => rfl
  | a :: b :: rest => by
    simp only [midpointsOf, List.length_cons, length_midpointsOf (b :: rest)]
    omega

theorem midpointsOf_get :
    ∀ (u : List ℚ) (i : ℕ) (h : i < (midpointsOf u).length),
      ∃ (h1 : i < u.length) (h2 : i + 1 < u.length),
        (midpointsOf u).get ⟨i, h⟩ = (u.get ⟨i, h1⟩ + u.get ⟨i + 1, h2⟩) / 2
  | a :: b :: rest, 0, _ => by
    refine ⟨by simp, by simp [Nat.succ_lt_succ, Nat.succ_pos], rfl⟩
  | a :: b :: rest, i + 1, h => by
    obtain ⟨h1, h2, he⟩ :=
      midpointsOf_get (b :: rest) i (by simpa [midpointsOf] using h)
    exact ⟨Nat.succ_lt_succ h1, Nat.succ_lt_succ h2, he⟩

theorem mem_midpointsOf_between :
    ∀ u : List ℚ, u.Sorted (· < ·) → ∀ t ∈ midpointsOf u,
      ∃ a b, a ∈ u ∧ b ∈ u ∧ a < t ∧ t < b ∧ ∀ v ∈ u, v ≤ a ∨ b ≤ v
  | [], _, t, ht => by simp [midpointsOf] at ht
  | [_], _, t, ht => by simp [midpointsOf] at ht
  | a :: b :: rest, hs, t, ht => by
    have hab : a < b := (List.sorted_cons.mp hs).1 b (List.mem_cons_self b rest)
    have hs' : (b :: rest).Sorted (· < ·) := (List.sorted_cons.mp hs).2
    rcases List.mem_cons.mp ht with rfl | ht'
    · refine ⟨a, b, List.mem_cons_self a _, List.mem_cons_of_mem a (List.mem_cons_self b rest),
        by linarith, by linarith, ?_⟩
      intro v hv
      rcases List.mem_cons.mp hv with rfl | hv'
      · exact Or.inl le_rfl
      · rcases List.mem_cons.mp hv' with rfl | hv''
        · exact Or.inr le_rfl
        · exact Or.inr (le_of_lt ((List.sorted_cons.mp hs').1 v hv''))
    · obtain ⟨a', b', ha', hb', h1, h2, hall⟩ := mem_midpointsOf_between (b :: rest) hs' t ht'
      refine ⟨a', b', List.mem_cons_of_mem a ha', List.mem_cons_of_mem a hb', h1, h2, ?_⟩
      intro v hv
      rcases List.mem_cons.mp hv with rfl | hv'
      · left
        have hba' : b ≤ a' := by
          rcases List.mem_cons.mp ha' with rfl | ha''
          · exact le_rfl
          · exact le_of_lt ((List.sorted_cons.mp hs').1 a' ha'')
        linarith
      · exact hall v hv'

theorem midpointsOf_sorted_lt : ∀ u : List ℚ, u.Sorted (· < ·) → (midpointsOf u).Sorted (· < ·)
  | [], _ => by simp [midpointsOf]
  | [_], _ => by simp [midpointsOf]
  | a :: b :: rest, hs => by
    have hab : a < b := (List.sorted_cons.mp hs).1 b (List.mem_cons_self b rest)
    have hs' : (b :: rest).Sorted (· < ·) := (List.sorted_cons.mp hs).2
    rw [midpointsOf, List.sorted_cons]
    refine ⟨?_, midpointsOf_sorted_lt (b :: rest) hs'⟩
    intro m hm
    obtain ⟨a', b', ha', _, h1, _, _⟩ := mem_midpointsOf_between (b :: rest) hs' m hm
    have hba' : b ≤ a' := by
      rcases List.mem_cons.mp ha' with rfl | ha''
      · exact le_rfl
      · exact le_of_lt ((List.sorted_cons.mp hs').1 a' ha'')
    linarith

/-! ### The best-tracking fold -/

theorem argminFold_none_cons {α : Type} (f : α → ℚ) (x : α) (l : List α) :
    argminFold f none (x :: l) = argminFold f (some x) l := rfl

theorem argminFold_cons {α : Type} (f : α → ℚ) (p₀ x : α) (l : List α) :
    argminFold f (some p₀) (x :: l) =
      argminFold f (some (if f x < f p₀ then x else p₀)) l := by
  by_cases h : f x < f p₀ <;> simp [argminFold, h]

/-- Decomposition of the strict-minimum tracking fold started at `some p₀`:
either the initial element survives and is `≤` everything scanned, or the
result sits at a position in `l` with strictly larger keys before it and
`≥` keys after it (so ties keep the earliest element). -/
theorem argminFold_some {α : Type} (f : α → ℚ) :
    ∀ (l : List α) (p₀ : α),
      ∃ q, argminFold f (some p₀) l = some q ∧
        ((q = p₀ ∧ ∀ p ∈ l, f p₀ ≤ f p) ∨
          (∃ pre post, l = pre ++ q :: post ∧ f q < f p₀ ∧
            (∀ p ∈ pre, f q < f p) ∧ (∀ p ∈ post, f q ≤ f p)))
  | [], p₀ => ⟨p₀, rfl, Or.inl ⟨rfl, by simp⟩⟩
  | x :: l, p₀ => by
    by_cases hx : f x < f p₀
    · rw [argminFold_cons, if_pos hx]
      obtain ⟨q, hq, hcase⟩ := argminFold_some f l x
      refine ⟨q, hq, Or.inr ?_⟩
      rcases hcase with ⟨rfl, hall⟩ | ⟨pre, post, hl, hlt, hpre, hpost⟩
      · exact ⟨[], l, rfl, hx, by simp, hall⟩
      · refine ⟨x :: pre, post, by rw [hl]; rfl, lt_trans hlt hx, ?_, hpost⟩
        intro p hp
        rcases List.mem_cons.mp hp with rfl | hp'
        · exact hlt
        · exact hpre p hp'
    · rw [argminFold_cons, if_neg hx]
      obtain ⟨q, hq, hcase⟩ := argminFold_some f l p₀
      refine ⟨q, hq, ?_⟩
      rcases hcase with ⟨rfl, hall⟩ | ⟨pre, post, hl, hlt, hpre, hpost⟩
      · refine Or.inl ⟨rfl, ?_⟩
        intro p hp
        rcases List.mem_cons.mp hp with rfl | hp'
        · exact le_of_not_lt hx
        · exact hall p hp'
      · refine Or.inr ⟨x :: pre, post, by rw [hl]; rfl, hlt, ?_, hpost⟩
        intro p hp
        rcases List.mem_cons.mp hp with rfl | hp'
        · exact lt_of_lt_of_le hlt (le_of_not_lt hx)
        · exact hpre p hp'

/-- Decomposition of the strict-minimum tracking fold started at `none`
(`best_gini = inf`) over a non-empty list. -/
theorem argminFold_none {α : Type} (f : α → ℚ) (l : List α) (hl : l ≠ []) :
    ∃ q pre post, argminFold f none l = some q ∧ l = pre ++ q :: post ∧
      (∀ p ∈ pre, f q < f p) ∧ ∀ p ∈ post, f q ≤ f p := by
  match l, hl with
  | x :: l, _ =>
    rw [argminFold_none_cons]
    obtain ⟨q, hq, hcase⟩ := argminFold_some f l x
    rcases hcase with ⟨rfl, hall⟩ | ⟨pre, post, hl', hlt, hpre, hpost⟩
    · exact ⟨q, [], l, hq, rfl, by simp, hall⟩
    · refine ⟨q, x :: pre, post, hq, by rw [hl']; rfl, ?_, hpost⟩
      intro p hp
      rcases List.mem_cons.mp hp with rfl | hp'
      · exact hlt
      · exact hpre p hp'

theorem argmaxFold_none_cons {α : Type} (f : α → ℕ) (x : α) (l : List α) :
    argmaxFold f none (x :: l) = argmaxFold f (some x) l := rfl

theorem argmaxFold_cons {α : Type} (f : α → ℕ) (p₀ x : α) (l : List α) :
    argmaxFold f (some p₀) (x :: l) =
      argmaxFold f (some (if f p₀ < f x then x else p₀)) l := by
  by_cases h : f p₀ < f x <;> simp [argmaxFold, h]

/-- Decomposition of the strict-maximum tracking fold started at `some p₀`. -/
theorem argmaxFold_some {α : Type} (f : α → ℕ) :
    ∀ (l : List α) (p₀ : α),
      ∃ q, argmaxFold f (some p₀) l = some q ∧
        ((q = p₀ ∧ ∀ p ∈ l, f p ≤ f p₀) ∨
          (∃ pre post, l = pre ++ q :: post ∧ f p₀ < f q ∧
            (∀ p ∈ pre, f p < f q) ∧ (∀ p ∈ post, f p ≤ f q)))
  | [], p₀ => ⟨p₀, rfl, Or.inl ⟨rfl, by simp⟩⟩
  | x :: l, p₀ => by
    by_cases hx : f p₀ < f x
    · rw [argmaxFold_cons, if_pos hx]
      obtain ⟨q, hq, hcase⟩ := argmaxFold_some f l x
      refine ⟨q, hq, Or.inr ?_⟩
      rcases hcase with ⟨rfl, hall⟩ | ⟨pre, post, hl, hlt, hpre, hpost⟩
      · exact ⟨[], l, rfl, hx, by simp, hall⟩
      · refine ⟨x :: pre, post, by rw [hl]; rfl, lt_trans hx hlt, ?_, hpost⟩
        intro p hp
        rcases List.mem_cons.mp hp with rfl | hp'
        · exact hlt
        · exact hpre p hp'
    · rw [argmaxFold_cons, if_neg hx]
      obtain ⟨q, hq, hcase⟩ := argmaxFold_some f l p₀
      refine ⟨q, hq, ?_⟩
      rcases hcase with ⟨rfl, hall⟩ | ⟨pre, post, hl, hlt, hpre, hpost⟩
      · refine Or.inl ⟨rfl, ?_⟩
        intro p hp
        rcases List.mem_cons.mp hp with rfl | hp'
        · exact le_of_not_lt hx
        · exact hall p hp'
      · refine Or.inr ⟨x :: pre, post, by rw [hl]; rfl, hlt, ?_, hpost⟩
        intro p hp
        rcases List.mem_cons.mp hp with rfl | hp'
        · exact lt_of_le_of_lt (le_of_not_lt hx) hlt
        · exact hpre p hp'

/-- Decomposition of the strict-maximum tracking fold started at `none`
over a non-empty list. -/
theorem argmaxFold_none {α : Type} (f : α → ℕ) (l : List α) (hl : l ≠ []) :
    ∃ q pre post, argmaxFold f none l = some q ∧ l = pre ++ q :: post ∧
      (∀ p ∈ pre, f p < f q) ∧ ∀ p ∈ post, f p ≤ f q := by
  match l, hl with
  | x :: l, _ =>
    rw [argmaxFold_none_cons]
    obtain ⟨q, hq, hcase⟩ := argmaxFold_some f l x
    rcases hcase with ⟨rfl, hall⟩ | ⟨pre, post, hl', hlt, hpre, hpost⟩
    · exact ⟨q, [], l, hq, rfl, by simp, hall⟩
    · refine ⟨q, x :: pre, post, hq, by rw [hl']; rfl, ?_, hpost⟩
      intro p hp
      rcases List.mem_cons.mp hp with rfl | hp'
      · exact hlt
      · exact hpre p hp'

/-! ### Structure of `find_best_split` -/

theorem sortedPairs_perm (fv : List ℚ) (tv : List ℤ) :
    (sortedPairs fv tv).Perm (fv.zip tv) :=
  List.perm_insertionSort _ _

theorem map_fst_sortedPairs_perm (fv : List ℚ) (tv : List ℤ) (hlen : tv.length = fv.length) :
    ((sortedPairs fv tv).map Prod.fst).Perm fv := by
  have h1 := (sortedPairs_perm fv tv).map Prod.fst
  rwa [List.map_fst_zip _ _ (le_of_eq hlen.symm)] at h1

theorem map_snd_sortedPairs_perm (fv : List ℚ) (tv : List ℤ) (hlen : tv.length = fv.length) :
    ((sortedPairs fv tv).map Prod.snd).Perm tv := by
  have h1 := (sortedPairs_perm fv tv).map Prod.snd
  rwa [List.map_snd_zip _ _ (le_of_eq hlen)] at h1

/-- Under equal input lengths, `np.unique(feature_vector)` computed inside
`find_best_split` is the sorted distinct-value list of the input feature
vector. -/
theorem fsUnique_eq (fv : List ℚ) (tv : List ℤ) (hlen : tv.length = fv.length) :
    fsUnique fv tv = uniqueSorted fv := by
  refine List.eq_of_perm_of_sorted ?_ (uniqueSorted_sorted_lt _) (uniqueSorted_sorted_lt _)
  refine List.perm_of_nodup_nodup_toFinset_eq (nodup_uniqueSorted _) (nodup_uniqueSorted _) ?_
  rw [fsUnique, toFinset_uniqueSorted, toFinset_uniqueSorted]
  exact List.toFinset_eq_of_perm _ _ (map_fst_sortedPairs_perm fv tv hlen)

theorem length_fsUnique (fv : List ℚ) (tv : List ℤ) (hlen : tv.length = fv.length) :
    (fsUnique fv tv).length = fv.toFinset.card := by
  rw [fsUnique_eq fv tv hlen, length_uniqueSorted]

theorem find_best_split_of_two_le (fv : List ℚ) (tv : List ℤ)
    (hlen : tv.length = fv.length) (hk : 2 ≤ fv.toFinset.card) :
    find_best_split fv tv =
      (fsThresholds fv tv, fsGinis fv tv,
       (fsBest fv tv).map Prod.fst, (fsBest fv tv).map Prod.snd) := by
  rw [find_best_split, if_neg]
  rw [length_fsUnique fv tv hlen]
  omega

theorem length_fsThresholds (fv : List ℚ) (tv : List ℤ) (hlen : tv.length = fv.length) :
    (fsThresholds fv tv).length = fv.toFinset.card - 1 := by
  rw [fsThresholds, length_midpointsOf, length_fsUnique fv tv hlen]

theorem fsThresholds_sorted_lt (fv : List ℚ) (tv : List ℤ) :
    (fsThresholds fv tv).Sorted (· < ·) :=
  midpointsOf_sorted_lt _ (uniqueSorted_sorted_lt _)

theorem midpointsOf_getD :
    ∀ (u : List ℚ) (i : ℕ), i + 1 < u.length →
      (midpointsOf u).getD i 0 = (u.getD i 0 + u.getD (i + 1) 0) / 2
  | a :: b :: rest, 0, _ => rfl
  | a :: b :: rest, i + 1, h => by
    have hrec := midpointsOf_getD (b :: rest) i (by simpa using h)
    simpa [midpointsOf] using hrec
  | [], i, h => by simp at h
  | [_], i, h => by simp at h

theorem sorted_lt_getD {u : List ℚ} (hs : u.Sorted (· < ·)) {i j : ℕ} (hij : i < j)
    (hj : j < u.length) : u.getD i 0 < u.getD j 0 := by
  rw [List.getD_eq_getElem u 0 (lt_trans hij hj), List.getD_eq_getElem u 0 hj]
  exact List.pairwise_iff_getElem.mp hs i j _ _ hij

/-! ### Claims C1–C4 and C6 about `find_best_split` -/

/-- C1 (counterexample): at the spec's example input
`feature_vector = [2, 3, 10]`, `target_vector = [0, 1, 0]` the returned
best threshold is `5/2` (both candidate thresholds tie at impurity `1/3`
and the strict-`<` update keeps the first), not `13/2` as the claim
states. -/
theorem C1_counterexample :
    ¬ ((find_best_split [2, 3, 10] [0, 1, 0]).2.2.1 = some (13 / 2 : ℚ)) := by
  norm_num [find_best_split, fsUnique, fsThresholds, fsGinis, fsBest, sortedPairs,
    uniqueSorted, firstOccs, firstOccsAux, midpointsOf, giniAt, gini, argminFold,
    List.insertionSort, List.orderedInsert, List.cons_ne_nil]

/-- C1 (amended): for `feature_vector = [2, 3, 10]` and
`target_vector = [0, 1, 0]`, `find_best_split` returns thresholds
`[5/2, 13/2]` with impurities `[1/3, 1/3]`, best threshold `5/2` and best
impurity `1/3`. -/
theorem C1_example_amended :
    find_best_split [2, 3, 10] [0, 1, 0] =
      ([5 / 2, 13 / 2], [1 / 3, 1 / 3], some (5 / 2 : ℚ), some (1 / 3 : ℚ)) := by
  norm_num [find_best_split, fsUnique, fsThresholds, fsGinis, fsBest, sortedPairs,
    uniqueSorted, firstOccs, firstOccsAux, midpointsOf, giniAt, gini, argminFold,
    List.insertionSort, List.orderedInsert, List.cons_ne_nil]

/-- C2: with at least two distinct feature values, the returned best pair
is one of the candidate `(threshold, impurity)` pairs, its impurity is the
minimum over all candidate impurities, and among candidates attaining that
minimum the returned threshold is the numerically smallest. -/
theorem C2_best_first_min (fv : List ℚ) (tv : List ℤ)
    (hlen : tv.length = fv.length) (hk : 2 ≤ fv.toFinset.card) :
    ∃ t g, (find_best_split fv tv).2.2.1 = some t ∧
      (find_best_split fv tv).2.2.2 = some g ∧
      (t, g) ∈ ((find_best_split fv tv).1).zip ((find_best_split fv tv).2.1) ∧
      (∀ g' ∈ (find_best_split fv tv).2.1, g ≤ g') ∧
      ∀ p ∈ ((find_best_split fv tv).1).zip ((find_best_split fv tv).2.1),
        p.2 = g → t ≤ p.1 := by
  rw [find_best_split_of_two_le fv tv hlen hk]
  have hlen_th : (fsThresholds fv tv).length = fv.toFinset.card - 1 :=
    length_fsThresholds fv tv hlen
  have hgs : (fsGinis fv tv).length = (fsThresholds fv tv).length := by
    rw [fsGinis, List.length_map]
  have hzlen : ((fsThresholds fv tv).zip (fsGinis fv tv)).length =
      (fsThresholds fv tv).length := by
    rw [List.length_zip, hgs, min_self]
  have hpos : 0 < (fsThresholds fv tv).length := by rw [hlen_th]; omega
  have hnil : (fsThresholds fv tv).zip (fsGinis fv tv) ≠ [] := by
    intro h
    rw [h] at hzlen
    simp only [List.length_nil] at hzlen
    omega
  obtain ⟨q, pre, post, hq, hdec, hpre, hpost⟩ := argminFold_none Prod.snd _ hnil
  have hmin : ∀ p ∈ (fsThresholds fv tv).zip (fsGinis fv tv), q.2 ≤ p.2 := by
    intro p hp
    rw [hdec] at hp
    rcases List.mem_append.mp hp with hp' | hp'
    · exact le_of_lt (hpre p hp')
    · rcases List.mem_cons.mp hp' with rfl | hp''
      · exact le_rfl
      · exact hpost p hp''
  have hpw : ((fsThresholds fv tv).zip (fsGinis fv tv)).Pairwise
      (fun p r => p.1 < r.1) := by
    have h1 : ((fsThresholds fv tv).zip (fsGinis fv tv)).map Prod.fst =
        fsThresholds fv tv := List.map_fst_zip _ _ (le_of_eq hgs.symm)
    have h2 := fsThresholds_sorted_lt fv tv
    rw [← h1] at h2
    exact List.pairwise_map.mp h2
  refine ⟨q.1, q.2, by rw [fsBest, hq]; rfl, by rw [fsBest, hq]; rfl, ?_, ?_, ?_⟩
  · rw [Prod.mk.eta, hdec]
    exact List.mem_append.mpr (Or.inr (List.mem_cons_self q post))
  · intro g' hg'
    have hmap : ((fsThresholds fv tv).zip (fsGinis fv tv)).map Prod.snd =
        fsGinis fv tv := List.map_snd_zip _ _ (le_of_eq hgs)
    rw [← hmap] at hg'
    obtain ⟨p, hp, hpg⟩ := List.mem_map.mp hg'
    exact hpg ▸ hmin p hp
  · intro p hp hpg
    rw [hdec] at hp
    rcases List.mem_append.mp hp with hp' | hp'
    · exact absurd hpg (ne_of_gt (hpre p hp'))
    · rcases List.mem_cons.mp hp' with rfl | hp''
      · exact le_rfl
      · rw [hdec] at hpw
        have hqpost := (List.pairwise_append.mp hpw).2.1
        exact le_of_lt ((List.pairwise_cons.mp hqpost).1 p hp'')

/-- C3: with `k ≥ 2` distinct feature values there are exactly `k - 1`
thresholds, aligned one-to-one with the impurity list, strictly ascending,
and the `i`-th threshold is the midpoint of the `i`-th and `(i+1)`-th
sorted distinct values and lies strictly between them. -/
theorem C3_thresholds_shape (fv : List ℚ) (tv : List ℤ)
    (hlen : tv.length = fv.length) (hk : 2 ≤ fv.toFinset.card) :
    ((find_best_split fv tv).1).length = fv.toFinset.card - 1 ∧
    ((find_best_split fv tv).2.1).length = ((find_best_split fv tv).1).length ∧
    ((find_best_split fv tv).1).Sorted (· < ·) ∧
    ∀ i : ℕ, i + 1 < (uniqueSorted fv).length →
      ((find_best_split fv tv).1).getD i 0 =
        ((uniqueSorted fv).getD i 0 + (uniqueSorted fv).getD (i + 1) 0) / 2 ∧
      (uniqueSorted fv).getD i 0 < ((find_best_split fv tv).1).getD i 0 ∧
      ((find_best_split fv tv).1).getD i 0 < (uniqueSorted fv).getD (i + 1) 0 := by
  rw [find_best_split_of_two_le fv tv hlen hk]
  have hu : fsUnique fv tv = uniqueSorted fv := fsUnique_eq fv tv hlen
  refine ⟨length_fsThresholds fv tv hlen, by rw [fsGinis, List.length_map],
    fsThresholds_sorted_lt fv tv, ?_⟩
  intro i hip
  have hmid : (fsThresholds fv tv).getD i 0 =
      ((uniqueSorted fv).getD i 0 + (uniqueSorted fv).getD (i + 1) 0) / 2 := by
    rw [fsThresholds, hu]
    exact midpointsOf_getD _ i hip
  have hlt : (uniqueSorted fv).getD i 0 < (uniqueSorted fv).getD (i + 1) 0 :=
    sorted_lt_getD (uniqueSorted_sorted_lt fv) (Nat.lt_succ_self i) hip
  refine ⟨hmid, ?_, ?_⟩ <;> rw [hmid] <;> linarith

/-- C4: with at least two distinct values no candidate threshold equals an
observed feature value, each threshold has observed values on both sides
of the `≤`/`>` partition, and filtering by `< t` coincides with filtering
by `≤ t` on the observed data. -/
theorem C4_threshold_avoids_values (fv : List ℚ) (tv : List ℤ)
    (hlen : tv.length = fv.length) (hk : 2 ≤ fv.toFinset.card)
    (t : ℚ) (ht : t ∈ (find_best_split fv tv).1) :
    (∀ v ∈ fv, v ≠ t) ∧ (∃ v ∈ fv, v ≤ t) ∧ (∃ v ∈ fv, t < v) ∧
      fv.filter (fun v => decide (v < t)) = fv.filter (fun v => decide (v ≤ t)) := by
  rw [find_best_split_of_two_le fv tv hlen hk] at ht
  have ht' : t ∈ midpointsOf (uniqueSorted fv) := by
    rw [fsThresholds, fsUnique_eq fv tv hlen] at ht
    exact ht
  obtain ⟨a, b, ha, hb, hat, htb, hall⟩ :=
    mem_midpointsOf_between _ (uniqueSorted_sorted_lt fv) t ht'
  have hmem : ∀ v : ℚ, v ∈ fv ↔ v ∈ uniqueSorted fv :=
    fun v => (mem_uniqueSorted fv v).symm
  have hne : ∀ v ∈ fv, v ≠ t := by
    intro v hv he
    rcases hall v ((hmem v).mp hv) with h | h
    · exact absurd (he ▸ h) (not_le.mpr hat)
    · exact absurd (he ▸ h) (not_le.mpr htb)
  refine ⟨hne, ⟨a, (hmem a).mpr ha, le_of_lt hat⟩, ⟨b, (hmem b).mpr hb, htb⟩, ?_⟩
  refine List.filter_congr ?_
  intro v hv
  rw [decide_eq_decide]
  exact ⟨le_of_lt, fun hle => lt_of_le_of_ne hle (hne v hv)⟩

/-- C6: for a constant feature vector (exactly one distinct value),
`find_best_split` returns empty threshold and impurity sequences and
`none` for both best outputs; being a total function, it raises no
error. -/
theorem C6_constant_feature (fv : List ℚ) (tv : List ℤ)
    (hlen : tv.length = fv.length) (h1 : fv.toFinset.card = 1) :
    find_best_split fv tv = ([], [], none, none) := by
  rw [find_best_split, if_pos]
  rw [length_fsUnique fv tv hlen, h1]

/-! ### Claim C5: the impurity formula

The following three definitions follow the spec's words (section 4.1 step
4), to be compared with the code's `gini`/`giniAt`: the label groups of
the `≤`/`>` partition, `H(group) = 1 - Σ_c p_c²` with the class set taken
from the full label input, and the size-weighted impurity. -/

/-- Spec formula: the left label group (`value ≤ threshold`). -/
def specLeftLabels (fv : List ℚ) (tv : List ℤ) (t : ℚ) : List ℤ :=
  ((fv.zip tv).filter (fun p => decide (p.1 ≤ t))).map Prod.snd

/-- Spec formula: the right label group (`value > threshold`). -/
def specRightLabels (fv : List ℚ) (tv : List ℤ) (t : ℚ) : List ℤ :=
  ((fv.zip tv).filter (fun p => decide (t < p.1))).map Prod.snd

/-- Spec formula: `H(group) = 1 - Σ_c p_c²` over the class proportions in
the group, the class set being the one observed in the full `labels`
input. -/
def specH (tv group : List ℤ) : ℚ :=
  1 - ∑ c in tv.toFinset, ((group.count c : ℚ) / (group.length : ℚ)) ^ 2

/-- Spec formula:
`(|left|/|total|) * H(left) + (|right|/|total|) * H(right)`. -/
def specImpurity (fv : List ℚ) (tv : List ℤ) (t : ℚ) : ℚ :=
  ((specLeftLabels fv tv t).length : ℚ) / (tv.length : ℚ) *
      specH tv (specLeftLabels fv tv t) +
    ((specRightLabels fv tv t).length : ℚ) / (tv.length : ℚ) *
      specH tv (specRightLabels fv tv t)

/-- One group term of the code's `gini` equals the corresponding term of
the spec formula. -/
theorem gini_term_eq (tv : List ℤ) (G S : List ℤ) (hperm : G.Perm S)
    (classes : List ℤ) (hcl : classes.toFinset = tv.toFinset) (hnd : classes.Nodup)
    (total : ℚ) (htot : total = (tv.length : ℚ)) :
    (if G.length = 0 then (0 : ℚ) else
      (1 - (classes.map (fun c =>
        ((G.count c : ℚ) / (G.length : ℚ)) * ((G.count c : ℚ) / (G.length : ℚ)))).sum) *
        ((G.length : ℚ) / total)) =
    ((S.length : ℚ) / (tv.length : ℚ)) * specH tv S := by
  have hlen : G.length = S.length := hperm.length_eq
  by_cases h0 : G.length = 0
  · rw [if_pos h0, ← hlen, h0]
    simp
  · rw [if_neg h0]
    have hsum : (classes.map (fun c =>
        ((G.count c : ℚ) / (G.length : ℚ)) * ((G.count c : ℚ) / (G.length : ℚ)))).sum =
        ∑ c in tv.toFinset, ((S.count c : ℚ) / (S.length : ℚ)) ^ 2 := by
      rw [← hcl, List.sum_toFinset _ hnd]
      refine congrArg List.sum (List.map_congr_left ?_)
      intro c _
      rw [hperm.count_eq, hlen, pow_two]
    rw [hsum, specH, htot, ← hlen]
    ring

/-- The impurity the code computes for a threshold equals the spec's
weighted-Gini formula (for equal-length inputs). -/
theorem giniAt_eq_specImpurity (fv : List ℚ) (tv : List ℤ)
    (hlen : tv.length = fv.length) (t : ℚ) :
    giniAt fv tv t = specImpurity fv tv t := by
  have hperm : (sortedPairs fv tv).Perm (fv.zip tv) := sortedPairs_perm fv tv
  have hLperm : (((sortedPairs fv tv).filter (fun p => decide (p.1 ≤ t))).map
      Prod.snd).Perm (specLeftLabels fv tv t) := (hperm.filter _).map _
  have hRperm : (((sortedPairs fv tv).filter (fun p => decide (t < p.1))).map
      Prod.snd).Perm (specRightLabels fv tv t) := (hperm.filter _).map _
  have hsplen : (sortedPairs fv tv).length = tv.length := by
    rw [hperm.length_eq, List.length_zip, hlen, min_self]
  have hco : (sortedPairs fv tv).filter (fun p => decide (t < p.1)) =
      (sortedPairs fv tv).filter (fun p => ! decide (p.1 ≤ t)) := by
    refine List.filter_congr ?_
    intro p _
    rw [← decide_not, decide_eq_decide]
    exact not_le.symm
  have htot : (((sortedPairs fv tv).filter (fun p => decide (p.1 ≤ t))).map
        Prod.snd).length +
      (((sortedPairs fv tv).filter (fun p => decide (t < p.1))).map Prod.snd).length =
      tv.length := by
    rw [List.length_map, List.length_map, hco, ← hsplen]
    exact (List.length_eq_length_filter_add _).symm
  have hcl : (uniqueSorted ((sortedPairs fv tv).map Prod.snd)).toFinset = tv.toFinset := by
    rw [toFinset_uniqueSorted]
    exact List.toFinset_eq_of_perm _ _ (map_snd_sortedPairs_perm fv tv hlen)
  rw [giniAt, gini, specImpurity]
  simp only [List.map_cons, List.map_nil, List.sum_cons, List.sum_nil, add_zero]
  have hL := gini_term_eq tv _ _ hLperm _ hcl (nodup_uniqueSorted _)
    ((((((sortedPairs fv tv).filter (fun p => decide (p.1 ≤ t))).map Prod.snd).length +
        (((sortedPairs fv tv).filter (fun p => decide (t < p.1))).map Prod.snd).length :
        ℕ) : ℚ))
    (by rw [htot])
  have hR := gini_term_eq tv _ _ hRperm _ hcl (nodup_uniqueSorted _)
    ((((((sortedPairs fv tv).filter (fun p => decide (p.1 ≤ t))).map Prod.snd).length +
        (((sortedPairs fv tv).filter (fun p => decide (t < p.1))).map Prod.snd).length :
        ℕ) : ℚ))
    (by rw [htot])
  rw [hL, hR]

/-- C5: for every candidate threshold, the impurity returned by
`find_best_split` equals the spec's weighted formula
`(|left|/|total|)·H(left) + (|right|/|total|)·H(right)` with the class
set taken from the full label input. -/
theorem C5_impurity_formula (fv : List ℚ) (tv : List ℤ)
    (hlen : tv.length = fv.length) (i : ℕ)
    (hi : i < ((find_best_split fv tv).1).length) :
    ((find_best_split fv tv).2.1).getD i 0 =
      specImpurity fv tv (((find_best_split fv tv).1).getD i 0) := by
  by_cases hone : (fsUnique fv tv).length = 1
  · rw [find_best_split, if_pos hone] at hi
    simp at hi
  · have hths : (find_best_split fv tv).1 = fsThresholds fv tv := by
      rw [find_best_split, if_neg hone]
    have hgse : (find_best_split fv tv).2.1 = fsGinis fv tv := by
      rw [find_best_split, if_neg hone]
    rw [hths] at hi
    rw [hgse, hths]
    have hgl : i < (fsGinis fv tv).length := by
      rw [fsGinis, List.length_map]
      exact hi
    rw [List.getD_eq_getElem _ 0 hgl, List.getD_eq_getElem _ 0 hi]
    simp only [fsGinis, List.getElem_map]
    exact giniAt_eq_specImpurity fv tv hlen _

/-! ### Mask and length lemmas for `_fit_node` -/

theorem length_filterMask_eq_count {α : Type} :
    ∀ (l : List α) (m : List Bool), m.length = l.length →
      (filterMask l m).length = m.count true
  | [], [], _ => rfl
  | a :: l, b :: m, h => by
    have hrec := length_filterMask_eq_count l m (by simpa using h)
    cases b <;>
      simp [filterMask, List.count_cons, List.zip_cons_cons] at hrec ⊢ <;>
      omega
  | [], _ :: _, h => by simp at h
  | _ :: _, [], h => by simp at h

theorem count_true_map_not : ∀ m : List Bool,
    (m.map (fun b => !b)).count true = m.count false
  | [] => rfl
  | b :: m => by
    cases b <;> simp [List.count_cons, count_true_map_not m]

theorem count_true_add_count_false : ∀ m : List Bool,
    m.count true + m.count false = m.length
  | [] => rfl
  | b :: m => by
    have hrec := count_true_add_count_false m
    cases b <;> simp [List.count_cons] <;> omega

theorem length_column (X : List (List ℚ)) (j : ℕ) : (column X j).length = X.length := by
  simp [column]

theorem length_proxyVector (ft : FeatureType) (col : List ℚ) (y : List ℤ) :
    (proxyVector ft col y).length = col.length := by
  cases ft <;> simp [proxyVector, categoricalEncode]

/-! ### The recorded threshold's mask is non-trivial -/

theorem argminFold_none_mem {α : Type} (f : α → ℚ) (l : List α) (q : α)
    (h : argminFold f none l = some q) : q ∈ l := by
  cases l with
  | nil => simp [argminFold] at h
  | cons x l =>
    obtain ⟨q', pre, post, hq', hdec, _, _⟩ := argminFold_none f (x :: l) (by simp)
    rw [h] at hq'
    obtain rfl : q = q' := by injection hq'
    rw [hdec]
    exact List.mem_append.mpr (Or.inr (List.mem_cons_self _ _))

theorem best_threshold_mem (fv : List ℚ) (tv : List ℤ) (t g : ℚ)
    (h : (find_best_split fv tv).2.2 = (some t, some g)) :
    t ∈ fsThresholds fv tv := by
  rw [find_best_split] at h
  by_cases hone : (fsUnique fv tv).length = 1
  · rw [if_pos hone] at h
    simp at h
  · rw [if_neg hone] at h
    have h1 : (fsBest fv tv).map Prod.fst = some t := congrArg Prod.fst h
    cases hb : fsBest fv tv with
    | none => rw [hb] at h1; simp at h1
    | some q =>
      obtain ⟨t', g'⟩ := q
      rw [hb, Option.map_some'] at h1
      have hqt : t' = t := by injection h1
      have hmem : (t', g') ∈ (fsThresholds fv tv).zip (fsGinis fv tv) :=
        argminFold_none_mem Prod.snd _ _ hb
      have := (List.of_mem_zip hmem).1
      rwa [hqt] at this

theorem mem_fsUnique_mem_fv (fv : List ℚ) (tv : List ℤ) (a : ℚ)
    (ha : a ∈ fsUnique fv tv) : a ∈ fv := by
  rw [fsUnique, mem_uniqueSorted] at ha
  obtain ⟨p, hp, hpa⟩ := List.mem_map.mp ha
  have hp' : p ∈ fv.zip tv := (sortedPairs_perm fv tv).mem_iff.mp hp
  cases p with
  | mk u v =>
    cases hpa
    exact (List.of_mem_zip hp').1

/-- A candidate threshold has observed feature values strictly on both
sides. -/
theorem mem_fsThresholds_straddles (fv : List ℚ) (tv : List ℤ) (t : ℚ)
    (ht : t ∈ fsThresholds fv tv) :
    (∃ v ∈ fv, v < t) ∧ (∃ v ∈ fv, t < v) := by
  obtain ⟨a, b, ha, hb, hat, htb, _⟩ :=
    mem_midpointsOf_between _ (uniqueSorted_sorted_lt _) t ht
  exact ⟨⟨a, mem_fsUnique_mem_fv fv tv a ha, hat⟩,
    ⟨b, mem_fsUnique_mem_fv fv tv b hb, htb⟩⟩

/-- Invariant carried through the feature loop: any recorded split mask
has row length and both at least one `true` and one `false` entry. -/
def maskOK (n : ℕ) (st : Option BestSplit) : Prop :=
  ∀ bs, st = some bs → bs.split.length = n ∧
    1 ≤ bs.split.count true ∧ 1 ≤ bs.split.count false

theorem maskOK_recordOf (ftypes : List FeatureType) (X : List (List ℚ)) (y : List ℤ)
    (j : ℕ) (t g : ℚ)
    (h : (find_best_split (proxyVector (ftypes.getD j FeatureType.real) (column X j) y)
        y).2.2 = (some t, some g)) :
    maskOK X.length (some (recordOf ftypes X y j t g)) := by
  intro bs hbs
  obtain rfl : recordOf ftypes X y j t g = bs := by injection hbs
  have ht := best_threshold_mem _ _ _ _ h
  obtain ⟨⟨va, hva, hvat⟩, ⟨vb, hvb, htvb⟩⟩ := mem_fsThresholds_straddles _ _ _ ht
  refine ⟨?_, ?_, ?_⟩
  · rw [recordOf]
    simp [length_proxyVector, length_column]
  · rw [recordOf]
    refine List.count_pos_iff.mpr ?_
    exact List.mem_map.mpr ⟨va, hva, by simp [hvat]⟩
  · rw [recordOf]
    refine List.count_pos_iff.mpr ?_
    exact List.mem_map.mpr ⟨vb, hvb, by simp [not_lt.mpr (le_of_lt htvb)]⟩

theorem stepFeature_maskOK (ftypes : List FeatureType) (X : List (List ℚ))
    (y : List ℤ) (st : Option BestSplit) (j : ℕ) (h : maskOK X.length st) :
    maskOK X.length (stepFeature ftypes X y st j) := by
  rw [stepFeature]
  by_cases hcard :
      (proxyVector (ftypes.getD j FeatureType.real) (column X j) y).toFinset.card ≤ 1
  · rw [if_pos hcard]
    exact h
  · rw [if_neg hcard]
    rcases hfb : (find_best_split
        (proxyVector (ftypes.getD j FeatureType.real) (column X j) y) y).2.2 with ⟨t?, g?⟩
    cases t? with
    | none => exact h
    | some t =>
      cases g? with
      | none => exact h
      | some g =>
        cases st with
        | none => exact maskOK_recordOf ftypes X y j t g hfb
        | some b =>
          show maskOK X.length
            (if g < b.giniVal then some (recordOf ftypes X y j t g) else some b)
          by_cases hg : g < b.giniVal
          · rw [if_pos hg]
            exact maskOK_recordOf ftypes X y j t g hfb
          · rw [if_neg hg]
            exact h

theorem maskOK_bestSplitFold (ftypes : List FeatureType) (X : List (List ℚ))
    (y : List ℤ) : maskOK X.length (bestSplitFold ftypes X y) := by
  rw [bestSplitFold]
  have hgen : ∀ (js : List ℕ) (st : Option BestSplit), maskOK X.length st →
      maskOK X.length (js.foldl (stepFeature ftypes X y) st) := by
    intro js
    induction js with
    | nil => intro st h; exact h
    | cons j js ih =>
      intro st h
      exact ih _ (stepFeature_maskOK ftypes X y st j h)
  refine hgen _ none ?_
  intro bs hbs
  exact absurd hbs (by simp)

/-- Fuel equal to the number of rows suffices for `fitNode`: each
recursive call strictly decreases the row count. -/
theorem fitNode_isSome (ftypes : List FeatureType) :
    ∀ (n : ℕ) (X : List (List ℚ)) (y : List ℤ), X ≠ [] → X.length ≤ n →
      (fitNode ftypes n X y).isSome = true := by
  intro n
  induction n with
  | zero =>
    intro X y hX hlen
    have : 0 < X.length := List.length_pos.mpr hX
    omega
  | succ m ih =>
    intro X y hX hlen
    rw [fitNode]
    by_cases hterm : (∀ v ∈ y, v = y.headI) ∨ X.length ≤ 1
    · rw [if_pos hterm]
      rfl
    · rw [if_neg hterm]
      cases hbs : bestSplitFold ftypes X y with
      | none => rfl
      | some bs =>
        obtain ⟨hmlen, hc1, hc0⟩ := maskOK_bestSplitFold ftypes X y bs hbs
        have hsum := count_true_add_count_false bs.split
        rw [hmlen] at hsum
        have h2 : ¬ X.length ≤ 1 := fun hcon => hterm (Or.inr hcon)
        have hXl : (filterMask X bs.split).length = bs.split.count true :=
          length_filterMask_eq_count X bs.split hmlen
        have hXr : (filterMask X (bs.split.map (fun b => !b))).length =
            bs.split.count false := by
          rw [length_filterMask_eq_count X _ (by rw [List.length_map]; exact hmlen),
            count_true_map_not]
        have hl1 : (fitNode ftypes m (filterMask X bs.split)
            (filterMask y bs.split)).isSome = true := by
          refine ih _ _ ?_ ?_
          · rw [← List.length_pos, hXl]
            omega
          · rw [hXl]
            omega
        have hr1 : (fitNode ftypes m (filterMask X (bs.split.map (fun b => !b)))
            (filterMask y (bs.split.map (fun b => !b)))).isSome = true := by
          refine ih _ _ ?_ ?_
          · rw [← List.length_pos, hXr]
            omega
          · rw [hXr]
            omega
        obtain ⟨l, hl⟩ := Option.isSome_iff_exists.mp hl1
        obtain ⟨r, hr⟩ := Option.isSome_iff_exists.mp hr1
        show (match fitNode ftypes m (filterMask X bs.split) (filterMask y bs.split),
            fitNode ftypes m (filterMask X (bs.split.map (fun b => !b)))
              (filterMask y (bs.split.map (fun b => !b))) with
          | some l, some r => some (mkNode bs l r)
          | _, _ => none).isSome = true
        rw [hl, hr]
        rfl

/-! ### Claims C7–C10 about the tree-fitting routines -/

/-- C7: on a non-empty training set with all-identical labels, or with a
single row, `fit` yields an immediate terminal root holding that label,
the tree has depth `0`, and prediction returns that label for every
input. -/
theorem C7_terminal_root (ftypes : List FeatureType) (X : List (List ℚ)) (y : List ℤ)
    (hy : y ≠ []) (hlen : y.length = X.length)
    (hc : (∀ v ∈ y, v = y.headI) ∨ X.length = 1) :
    fit ftypes X y = some (Tree.terminal y.headI) ∧
      getDepth (Tree.terminal y.headI) = 0 ∧
      ∀ x : List ℚ, predictNode x (Tree.terminal y.headI) = y.headI := by
  have hpos : 0 < X.length := by
    rw [← hlen]
    exact List.length_pos.mpr hy
  obtain ⟨m, hm⟩ : ∃ m, X.length = m + 1 := ⟨X.length - 1, by omega⟩
  have hterm : (∀ v ∈ y, v = y.headI) ∨ X.length ≤ 1 := by
    rcases hc with hc | hc
    · exact Or.inl hc
    · exact Or.inr (le_of_eq hc)
  rw [fit, hm, fitNode, if_pos hterm]
  exact ⟨rfl, rfl, fun _ => rfl⟩

/-- C8: with a non-empty sample matrix (the label vector matching in
length), fitting with fuel equal to the row count succeeds — the
recursion terminates — and whenever the feature loop records a split, the
induced mask partition gives two non-empty sub-samples that are each
strictly smaller than the parent and together exhaust it. -/
theorem C8_fit_node_terminates (ftypes : List FeatureType) (X : List (List ℚ))
    (y : List ℤ) (hX : X ≠ []) (hlen : y.length = X.length) :
    (fitNode ftypes X.length X y).isSome = true ∧
    ∀ bs, bestSplitFold ftypes X y = some bs →
      1 ≤ (filterMask X bs.split).length ∧
      (filterMask X bs.split).length < X.length ∧
      1 ≤ (filterMask X (bs.split.map (fun b => !b))).length ∧
      (filterMask X (bs.split.map (fun b => !b))).length < X.length ∧
      (filterMask X bs.split).length +
        (filterMask X (bs.split.map (fun b => !b))).length = X.length := by
  refine ⟨fitNode_isSome ftypes X.length X y hX le_rfl, ?_⟩
  intro bs hbs
  obtain ⟨hmlen, hc1, hc0⟩ := maskOK_bestSplitFold ftypes X y bs hbs
  have hsum := count_true_add_count_false bs.split
  rw [hmlen] at hsum
  have hXl : (filterMask X bs.split).length = bs.split.count true :=
    length_filterMask_eq_count X bs.split hmlen
  have hXr : (filterMask X (bs.split.map (fun b => !b))).length =
      bs.split.count false := by
    rw [length_filterMask_eq_count X _ (by rw [List.length_map]; exact hmlen),
      count_true_map_not]
  rw [hXl, hXr]
  omega

/-- C9: at a categorical internal node, a feature value not in the stored
category list — in particular any category never seen in training — is
routed to the right child; `predictNode` is total, so prediction returns
a class without raising. -/
theorem C9_unknown_category_right (x : List ℚ) (j : ℕ) (cats : List ℚ) (l r : Tree)
    (h : x.getD j 0 ∉ cats) :
    predictNode x (Tree.nodeCat j cats l r) = predictNode x r := by
  show (if x.getD j 0 ∈ cats then predictNode x l else predictNode x r) = predictNode x r
  rw [if_neg h]

/-- C10: when the stopping rule does not fire and the feature loop finds
no usable split, `_fit_node` makes the node terminal with
`Counter(sub_y).most_common(1)[0][0]`: a label of maximal frequency, and
among labels tied for maximal frequency the one whose first occurrence in
`sub_y` is earliest. -/
theorem C10_majority_tiebreak (ftypes : List FeatureType) (fuel : ℕ)
    (X : List (List ℚ)) (y : List ℤ) (hy : y ≠ [])
    (hterm : ¬ ((∀ v ∈ y, v = y.headI) ∨ X.length ≤ 1))
    (hnone : bestSplitFold ftypes X y = none) :
    fitNode ftypes (fuel + 1) X y = some (Tree.terminal (mostCommon y)) ∧
      mostCommon y ∈ y ∧
      (∀ c : ℤ, y.count c ≤ y.count (mostCommon y)) ∧
      ∀ c : ℤ, y.count c = y.count (mostCommon y) →
        y.indexOf (mostCommon y) ≤ y.indexOf c := by
  have hKne : firstOccs y ≠ [] :=
    List.ne_nil_of_mem ((mem_firstOccs y (y.head hy)).mpr (List.head_mem hy))
  obtain ⟨q, pre, post, hq, hdec, hpre, hpost⟩ :=
    argmaxFold_none (fun c => y.count c) (firstOccs y) hKne
  have hmc : mostCommon y = q := by
    rw [mostCommon, hq, Option.getD_some]
  have hqK : q ∈ firstOccs y := by
    rw [hdec]
    exact List.mem_append.mpr (Or.inr (List.mem_cons_self _ _))
  have hqy : q ∈ y := (mem_firstOccs y q).mp hqK
  have hmax : ∀ c : ℤ, y.count c ≤ y.count q := by
    intro c
    by_cases hcy : c ∈ y
    · have hcK : c ∈ firstOccs y := (mem_firstOccs y c).mpr hcy
      rw [hdec] at hcK
      rcases List.mem_append.mp hcK with hc' | hc'
      · exact le_of_lt (hpre c hc')
      · rcases List.mem_cons.mp hc' with rfl | hc''
        · exact le_rfl
        · exact hpost c hc''
    · rw [List.count_eq_zero_of_not_mem hcy]
      exact Nat.zero_le _
  refine ⟨?_, ?_, ?_, ?_⟩
  · rw [fitNode, if_neg hterm, hnone]
  · rw [hmc]
    exact hqy
  · rw [hmc]
    exact hmax
  · intro c hcount
    rw [hmc] at hcount ⊢
    have hcpos : 0 < y.count c := by
      rw [hcount]
      exact List.count_pos_iff.mpr hqy
    have hcy : c ∈ y := List.count_pos_iff.mp hcpos
    have hcK : c ∈ firstOccs y := (mem_firstOccs y c).mpr hcy
    rw [hdec] at hcK
    rcases List.mem_append.mp hcK with hc' | hc'
    · exact absurd hcount (Nat.ne_of_lt (hpre c hc'))
    · rcases List.mem_cons.mp hc' with rfl | hc''
      · exact le_rfl
      · have hpw := pairwise_indexOf_firstOccs y
        rw [hdec] at hpw
        have hqpost := (List.pairwise_append.mp hpw).2.1
        exact le_of_lt ((List.pairwise_cons.mp hqpost).1 c hc'')

theorem headI_mem {α : Type} [Inhabited α] : ∀ l : List α, l ≠ [] → l.headI ∈ l
  | [], h => absurd rfl h
  | a :: l, _ => List.mem_cons_self a l

/-! ### Concrete witnesses -/

theorem C2_witness :
    (([0, 1, 0] : List ℤ).length = ([2, 3, 10] : List ℚ).length ∧
      2 ≤ ([2, 3, 10] : List ℚ).toFinset.card) ∧
    ∃ t g, (find_best_split [2, 3, 10] [0, 1, 0]).2.2.1 = some t ∧
      (find_best_split [2, 3, 10] [0, 1, 0]).2.2.2 = some g ∧
      (t, g) ∈ ((find_best_split [2, 3, 10] [0, 1, 0]).1).zip
        ((find_best_split [2, 3, 10] [0, 1, 0]).2.1) ∧
      (∀ g' ∈ (find_best_split [2, 3, 10] [0, 1, 0]).2.1, g ≤ g') ∧
      ∀ p ∈ ((find_best_split [2, 3, 10] [0, 1, 0]).1).zip
          ((find_best_split [2, 3, 10] [0, 1, 0]).2.1),
        p.2 = g → t ≤ p.1 :=
  ⟨⟨by decide, by decide⟩, C2_best_first_min [2, 3, 10] [0, 1, 0] (by decide) (by decide)⟩

theorem C3_witness :
    (([0, 1, 0] : List ℤ).length = ([2, 3, 10] : List ℚ).length ∧
      2 ≤ ([2, 3, 10] : List ℚ).toFinset.card) ∧
    ((find_best_split [2, 3, 10] [0, 1, 0]).1).length =
        ([2, 3, 10] : List ℚ).toFinset.card - 1 ∧
      ((find_best_split [2, 3, 10] [0, 1, 0]).2.1).length =
        ((find_best_split [2, 3, 10] [0, 1, 0]).1).length ∧
      ((find_best_split [2, 3, 10] [0, 1, 0]).1).Sorted (· < ·) ∧
      ∀ i : ℕ, i + 1 < (uniqueSorted ([2, 3, 10] : List ℚ)).length →
        ((find_best_split [2, 3, 10] [0, 1, 0]).1).getD i 0 =
          ((uniqueSorted ([2, 3, 10] : List ℚ)).getD i 0 +
            (uniqueSorted ([2, 3, 10] : List ℚ)).getD (i + 1) 0) / 2 ∧
        (uniqueSorted ([2, 3, 10] : List ℚ)).getD i 0 <
          ((find_best_split [2, 3, 10] [0, 1, 0]).1).getD i 0 ∧
        ((find_best_split [2, 3, 10] [0, 1, 0]).1).getD i 0 <
          (uniqueSorted ([2, 3, 10] : List ℚ)).getD (i + 1) 0 :=
  ⟨⟨by decide, by decide⟩, C3_thresholds_shape [2, 3, 10] [0, 1, 0] (by decide) (by decide)⟩

theorem C4_witness :
    (([0, 1, 0] : List ℤ).length = ([2, 3, 10] : List ℚ).length ∧
      2 ≤ ([2, 3, 10] : List ℚ).toFinset.card ∧
      ((find_best_split [2, 3, 10] [0, 1, 0]).1).headI ∈
        (find_best_split [2, 3, 10] [0, 1, 0]).1) ∧
    (∀ v ∈ ([2, 3, 10] : List ℚ),
        v ≠ ((find_best_split [2, 3, 10] [0, 1, 0]).1).headI) ∧
      (∃ v ∈ ([2, 3, 10] : List ℚ),
        v ≤ ((find_best_split [2, 3, 10] [0, 1, 0]).1).headI) ∧
      (∃ v ∈ ([2, 3, 10] : List ℚ),
        ((find_best_split [2, 3, 10] [0, 1, 0]).1).headI < v) ∧
      ([2, 3, 10] : List ℚ).filter
          (fun v => decide (v < ((find_best_split [2, 3, 10] [0, 1, 0]).1).headI)) =
        ([2, 3, 10] : List ℚ).filter
          (fun v => decide (v ≤ ((find_best_split [2, 3, 10] [0, 1, 0]).1).headI)) :=
  ⟨⟨by decide, by decide, headI_mem _ (by decide)⟩,
    C4_threshold_avoids_values [2, 3, 10] [0, 1, 0] (by decide) (by decide) _
      (headI_mem _ (by decide))⟩

theorem C5_witness :
    (([0, 1, 0] : List ℤ).length = ([2, 3, 10] : List ℚ).length ∧
      0 < ((find_best_split [2, 3, 10] [0, 1, 0]).1).length) ∧
    ((find_best_split [2, 3, 10] [0, 1, 0]).2.1).getD 0 0 =
      specImpurity [2, 3, 10] [0, 1, 0]
        (((find_best_split [2, 3, 10] [0, 1, 0]).1).getD 0 0) :=
  ⟨⟨by decide, by decide⟩, C5_impurity_formula [2, 3, 10] [0, 1, 0] (by decide) 0 (by decide)⟩

theorem C6_witness :
    (([0, 1] : List ℤ).length = ([5, 5] : List ℚ).length ∧
      ([5, 5] : List ℚ).toFinset.card = 1) ∧
    find_best_split [5, 5] [0, 1] = ([], [], none, none) :=
  ⟨⟨by decide, by decide⟩, C6_constant_feature [5, 5] [0, 1] (by decide) (by decide)⟩

theorem C7_witness :
    (([7, 7] : List ℤ) ≠ [] ∧
      ([7, 7] : List ℤ).length = ([[1], [2]] : List (List ℚ)).length ∧
      ((∀ v ∈ ([7, 7] : List ℤ), v = ([7, 7] : List ℤ).headI) ∨
        ([[1], [2]] : List (List ℚ)).length = 1)) ∧
    fit [FeatureType.real] [[1], [2]] [7, 7] =
        some (Tree.terminal (([7, 7] : List ℤ).headI)) ∧
      getDepth (Tree.terminal (([7, 7] : List ℤ).headI)) = 0 ∧
      ∀ x : List ℚ, predictNode x (Tree.terminal (([7, 7] : List ℤ).headI)) =
        ([7, 7] : List ℤ).headI :=
  ⟨⟨by decide, by decide, by decide⟩,
    C7_terminal_root [FeatureType.real] [[1], [2]] [7, 7] (by decide) (by decide) (by decide)⟩

theorem C8_witness :
    (([[0], [1]] : List (List ℚ)) ≠ [] ∧
      ([0, 1] : List ℤ).length = ([[0], [1]] : List (List ℚ)).length) ∧
    (fitNode [FeatureType.real] ([[0], [1]] : List (List ℚ)).length
        [[0], [1]] [0, 1]).isSome = true ∧
      ∀ bs, bestSplitFold [FeatureType.real] [[0], [1]] [0, 1] = some bs →
        1 ≤ (filterMask ([[0], [1]] : List (List ℚ)) bs.split).length ∧
        (filterMask ([[0], [1]] : List (List ℚ)) bs.split).length <
          ([[0], [1]] : List (List ℚ)).length ∧
        1 ≤ (filterMask ([[0], [1]] : List (List ℚ))
          (bs.split.map (fun b => !b))).length ∧
        (filterMask ([[0], [1]] : List (List ℚ)) (bs.split.map (fun b => !b))).length <
          ([[0], [1]] : List (List ℚ)).length ∧
        (filterMask ([[0], [1]] : List (List ℚ)) bs.split).length +
          (filterMask ([[0], [1]] : List (List ℚ)) (bs.split.map (fun b => !b))).length =
          ([[0], [1]] : List (List ℚ)).length :=
  ⟨⟨by decide, by decide⟩,
    C8_fit_node_terminates [FeatureType.real] [[0], [1]] [0, 1] (by decide) (by decide)⟩

theorem C9_witness :
    (([5] : List ℚ).getD 0 0 ∉ ([1, 2] : List ℚ)) ∧
    predictNode [5] (Tree.nodeCat 0 [1, 2] (Tree.terminal 0) (Tree.terminal 1)) =
      predictNode [5] (Tree.terminal 1) :=
  ⟨by decide, C9_unknown_category_right [5] 0 [1, 2] (Tree.terminal 0) (Tree.terminal 1)
    (by decide)⟩

theorem C10_witness :
    (([0, 1] : List ℤ) ≠ [] ∧
      ¬ ((∀ v ∈ ([0, 1] : List ℤ), v = ([0, 1] : List ℤ).headI) ∨
        ([[1], [1]] : List (List ℚ)).length ≤ 1) ∧
      bestSplitFold [FeatureType.real] [[1], [1]] [0, 1] = none) ∧
    fitNode [FeatureType.real] (0 + 1) [[1], [1]] [0, 1] =
        some (Tree.terminal (mostCommon [0, 1])) ∧
      mostCommon [0, 1] ∈ ([0, 1] : List ℤ) ∧
      (∀ c : ℤ, ([0, 1] : List ℤ).count c ≤ ([0, 1] : List ℤ).count (mostCommon [0, 1])) ∧
      ∀ c : ℤ, ([0, 1] : List ℤ).count c = ([0, 1] : List ℤ).count (mostCommon [0, 1]) →
        ([0, 1] : List ℤ).indexOf (mostCommon [0, 1]) ≤ ([0, 1] : List ℤ).indexOf c :=
  ⟨⟨by decide, by decide, by decide⟩,
    C10_majority_tiebreak [FeatureType.real] 0 [[1], [1]] [0, 1] (by decide) (by decide)
      (by decide)⟩

end TreeCode
